import Mathlib

/-!
Verification of the FERN_STYLE checker core (scripts/check_style.py).

The Python source is shallowly embedded below: each Python function is
translated to an executable Lean definition of the same name, operating on
`List Char` (one source line) or `List (List Char)` (the file split on
newlines).  Regular-expression searches from the source are translated to
explicit scanning functions that implement the same leftmost-match,
greedy-with-backtracking semantics for the concrete patterns appearing in
the source.
-/

namespace CheckStyle

/-- Python `\s` / `str.strip()` whitespace over the ASCII range. -/
def isSpaceCh (c : Char) : Bool :=
  c = ' ' || c = '\t' || c = '\n' || c = '\r' || c = '\x0b' || c = '\x0c'

/-- Python `\w` word characters over the ASCII range. -/
def isWordCh (c : Char) : Bool :=
  ('a' ≤ c && c ≤ 'z') || ('A' ≤ c && c ≤ 'Z') || ('0' ≤ c && c ≤ '9') || c = '_'

/-- Character class `[\w\*]` used by the signature pattern. -/
def isWordStar (c : Char) : Bool := isWordCh c || c = '*'

/-- Python `str.strip()`: drop whitespace from both ends. -/
def trim (l : List Char) : List Char :=
  ((l.dropWhile isSpaceCh).reverse.dropWhile isSpaceCh).reverse

/-- Python `str.split(sep)` for a one-character separator (keeps empty pieces). -/
def splitOnCh (sep : Char) : List Char → List (List Char)
  | [] => [[]]
  | c :: rest =>
    if c = sep then [] :: splitOnCh sep rest
    else
      match splitOnCh sep rest with
      | [] => [[c]]
      | p :: ps => (c :: p) :: ps

/-- Python substring containment (`needle in haystack`). -/
def containsSub (needle : List Char) : List Char → Bool
  | [] => needle.isPrefixOf []
  | c :: rest => needle.isPrefixOf (c :: rest) || containsSub needle rest

/-- Python `str.replace(pat, "")` for a nonempty pattern: delete every
leftmost, non-overlapping occurrence.  Fuel-based so that the kernel can
evaluate it; `fuel = l.length` always suffices because every step consumes
at least one character. -/
def removeAllFuel (pat : List Char) : Nat → List Char → List Char
  | _, [] => []
  | 0, l => l
  | fuel + 1, c :: rest =>
    if pat ≠ [] ∧ pat.isPrefixOf (c :: rest) then
      removeAllFuel pat fuel ((c :: rest).drop pat.length)
    else
      c :: removeAllFuel pat fuel rest

def removeAll (pat l : List Char) : List Char := removeAllFuel pat l.length l

/-- Python `str.split()` with no argument: split on whitespace runs,
producing no empty pieces. -/
def splitWs (l : List Char) : List (List Char) :=
  match l with
  | [] => []
  | c :: rest =>
    if isSpaceCh c then splitWs rest
    else
      match splitWs rest with
      | [] => [[c]]
      | p :: ps =>
        match rest with
        | [] => [[c]]
        | d :: _ => if isSpaceCh d then [c] :: p :: ps else (c :: p) :: ps

/-!
## LiteralStripper: `strip_string_literals`

Direct translation of the character loop in the source.  The state is
`none` (outside any literal) or `some q` (inside a literal opened by the
quote character `q`).  Inside a literal, a backslash followed by another
character blanks both; the matching quote closes the literal and is kept;
every other character is blanked to a space.
-/

def stripAux : Option Char → List Char → List Char
  | _, [] => []
  | none, c :: rest =>
    if c = '"' ∨ c = '\'' then c :: stripAux (some c) rest
    else c :: stripAux none rest
  | some q, c :: rest =>
    if c = '\\' then
      match rest with
      | _ :: rest' => ' ' :: ' ' :: stripAux (some q) rest'
      -- a trailing backslash falls through to the string_char comparison;
      -- here `stripAux _ [] = []` is inlined so recursion stays structural
      | [] => if c = q then [c] else [' ']
    else if c = q then c :: stripAux none rest
    else ' ' :: stripAux (some q) rest

/-- `strip_string_literals` from the source, as a `String → String`. -/
def strip_string_literals (s : String) : String := String.mk (stripAux none s.data)

@[simp] theorem stripAux_nil (st : Option Char) : stripAux st [] = [] := by
  cases st <;> rfl

@[simp] theorem stripAux_none_cons (c : Char) (rest : List Char) :
    stripAux none (c :: rest) =
      if c = '"' ∨ c = '\'' then c :: stripAux (some c) rest
      else c :: stripAux none rest := rfl

@[simp] theorem stripAux_some_cons (q c : Char) (rest : List Char) :
    stripAux (some q) (c :: rest) =
      if c = '\\' then
        match rest with
        | _ :: rest' => ' ' :: ' ' :: stripAux (some q) rest'
        | [] => if c = q then [c] else [' ']
      else if c = q then c :: stripAux none rest
      else ' ' :: stripAux (some q) rest := by cases rest <;> rfl

theorem stripAux_length (st : Option Char) (l : List Char) :
    (stripAux st l).length = l.length := by
  induction st, l using stripAux.induct with
  | case1 st => cases st <;> rfl
  | case2 c rest h ih => simp [h, ih]
  | case3 c rest h ih => simp [h, ih]
  | case4 q d rest ih => simp [ih]
  | case5 => rfl
  | case6 q hq => simp [hq]
  | case7 c rest hb ih => simp [hb, ih]
  | case8 q c rest hb hq ih => simp [hb, hq, ih]

/-- States reachable from the outside-a-literal start state: outside, or
inside a literal opened by one of the two quote characters. -/
def GoodState (st : Option Char) : Prop :=
  st = none ∨ st = some '"' ∨ st = some '\''

theorem stripAux_idem : ∀ (st : Option Char) (l : List Char), GoodState st →
    stripAux st (stripAux st l) = stripAux st l := by
  intro st l
  induction st, l using stripAux.induct with
  | case1 st => intro _; cases st <;> rfl
  | case2 c rest h ih =>
    intro _
    have hg : GoodState (some c) := by
      rcases h with h' | h' <;> simp [GoodState, h']
    simp [h, ih hg]
  | case3 c rest h ih =>
    intro _
    simp [h, ih (Or.inl rfl)]
  | case4 q d rest ih =>
    intro hst
    have hsq : ¬ (' ' = q) := by
      rcases hst with h | h | h <;> simp_all [GoodState]
    simp [hsq, ih hst]
  | case5 =>
    intro hst
    rcases hst with h | h | h <;> simp_all [GoodState]
  | case6 q hq =>
    intro hst
    have hsq : ¬ (' ' = q) := by
      rcases hst with h | h | h <;> simp_all [GoodState]
    simp [hq, hsq]
  | case7 c rest hb ih =>
    intro hst
    simp [hb, ih (Or.inl rfl)]
  | case8 q c rest hb hq ih =>
    intro hst
    have hsq : ¬ (' ' = q) := by
      rcases hst with h | h | h <;> simp_all [GoodState]
    simp [hb, hq, hsq, ih hst]

/-!
## Regex helpers

Each Python regex in the source is translated to an explicit scanner.  A
`search` walks every start position from the left (as `re.search` does) and
tries the pattern there; within one position the concrete patterns at hand
are deterministic, because every greedy sub-pattern (`\s*`, `\w+`, `[^)]*`,
…) is followed by a token drawn from a disjoint character class, so maximal
munch never needs to backtrack.
-/

/-- Literal-prefix step: consume `lit` or fail. -/
def afterLit (lit cs : List Char) : Option (List Char) :=
  if lit.isPrefixOf cs then some (cs.drop lit.length) else none

/-- A `\b` boundary immediately before a word character: the previous
character (if any) is not a word character. -/
def boundaryB (prev : Option Char) : Bool :=
  match prev with
  | none => true
  | some p => !(isWordCh p)

/-!
### `func_pattern`

`^(?:static\s+)?(?:inline\s+)?(?:[\w\*]+\s+)+(\w+)\s*\([^)]*\)\s*\{`
(`re.match`, so anchored at the start only).  After the optional modifiers
the pattern is equivalent to: a sequence of `[\w\*]+` tokens separated by
whitespace runs, of which the last is pure `\w+`, followed by optional
whitespace, `(`, any non-`)` characters, `)`, optional whitespace, `{`;
at least one token must precede the name.  The regex engine's rep-count
backtracking always lands on this decomposition, implemented below as a
single left-to-right pass.
-/

/-- `[^)]*\)\s*\{` ; `inWs = false` while inside `[^)]*`, `true` in the
`\s*` before the brace. -/
def sigAfterParen : Bool → List Char → Bool
  | _, [] => false
  | false, c :: rest => if c = ')' then sigAfterParen true rest else sigAfterParen false rest
  | true, c :: rest =>
    if c = '{' then true
    else if isSpaceCh c then sigAfterParen true rest
    else false

/-- Token walk for `(?:[\w\*]+\s+)+(\w+)\s*\(...`.  `inWs` is false while
inside a `[\w\*]+` token and true in the whitespace after one; `curRev` is
the current (or just-completed) token, reversed; `hasRep` records whether at
least one completed token precedes `curRev`. -/
def sigScan (inWs : Bool) (curRev : List Char) (hasRep : Bool) : List Char → Option String
  | [] => none
  | c :: rest =>
    if inWs then
      if isSpaceCh c then sigScan true curRev hasRep rest
      else if isWordStar c then sigScan false [c] true rest
      else if c = '(' then
        if hasRep ∧ curRev.all isWordCh then
          if sigAfterParen false rest then some (String.mk curRev.reverse) else none
        else none
      else none
    else
      if isWordStar c then sigScan false (c :: curRev) hasRep rest
      else if isSpaceCh c then sigScan true curRev hasRep rest
      else if c = '(' then
        if hasRep ∧ curRev.all isWordCh then
          if sigAfterParen false rest then some (String.mk curRev.reverse) else none
        else none
      else none

/-- The part of `func_pattern` after the optional modifiers. -/
def sigEntry (cs : List Char) : Option String :=
  match cs with
  | c :: rest => if isWordStar c then sigScan false [c] false rest else none
  | [] => none

/-- One optional modifier `(?:kw\s+)?` taken in its consumed alternative:
the literal keyword followed by at least one whitespace character. -/
def afterKw (kw cs : List Char) : Option (List Char) :=
  match afterLit kw cs with
  | none => none
  | some r =>
    match r with
    | c :: rest => if isSpaceCh c then some (rest.dropWhile isSpaceCh) else none
    | [] => none

/-- `func_pattern.match(line)`: returns the captured function name if the
line is recognized as a function-definition start.  The four
consumed/skipped combinations of the two optional modifiers are tried in
the regex engine's backtracking order. -/
def funcPatternName (cs : List Char) : Option String :=
  let tryCombo := fun (useS useI : Bool) =>
    (do
      let r1 ← if useS then afterKw "static".data cs else some cs
      let r2 ← if useI then afterKw "inline".data r1 else some r1
      sigEntry r2)
  tryCombo true true <|> tryCombo true false <|> tryCombo false true <|> tryCombo false false

/-!
### `re.search(r"\(([^)]*)\)", line)`

The leftmost match starts at the first `(` of the line, and the group runs
to the first `)` after it; if the first `(` has no later `)` then no later
start position can match either (a match needs some `)`), so the search
fails.
-/
def extractParen (cs : List Char) : Option (List Char) :=
  match cs.dropWhile (· ≠ '(') with
  | '(' :: rest =>
    match rest.span (· ≠ ')') with
    | (grp, ')' :: _) => some grp
    | _ => none
  | _ => none

/-!
### `extract_function_params`
-/

/-- The comma-splitting loop of `extract_function_params`: split on commas
at parenthesis depth 0, stripping each piece; the final piece is kept only
if nonempty after stripping. -/
def splitParams : List Char → Int → List Char → List (List Char)
  | [], _, cur => if trim cur = [] then [] else [trim cur]
  | c :: rest, depth, cur =>
    if c = '(' then splitParams rest (depth + 1) (cur ++ [c])
    else if c = ')' then splitParams rest (depth - 1) (cur ++ [c])
    else if c = ',' ∧ depth = 0 then trim cur :: splitParams rest depth []
    else splitParams rest depth (cur ++ [c])

/-- `re.sub(r"\[[^\]]*\]", "", param)`: delete every leftmost `[...]` pair
(the content may not contain `]`).  A `[` with no later `]` matches nothing,
and then no later occurrence can match either.  Fuel-based for kernel
evaluation; `fuel = l.length` suffices. -/
def removeBracketsFuel : Nat → List Char → List Char
  | _, [] => []
  | 0, l => l
  | fuel + 1, c :: rest =>
    if c = '[' ∧ rest.contains ']' then
      removeBracketsFuel fuel ((rest.dropWhile (· ≠ ']')).drop 1)
    else c :: removeBracketsFuel fuel rest

def removeBrackets (l : List Char) : List Char := removeBracketsFuel l.length l

/-- Per-parameter name extraction: remove `[...]` groups, take the last
whitespace-separated word, strip leading `*`; drop it when empty or
`void`. -/
def paramName (p : List Char) : Option String :=
  let q := removeBrackets p
  match (splitWs q).getLast? with
  | none => none
  | some w =>
    let n := w.dropWhile (· = '*')
    if n = [] ∨ n = "void".data then none else some (String.mk n)

/-- `extract_function_params` from the source. -/
def extract_function_params (line : List Char) : List String :=
  match extractParen line with
  | none => []
  | some grp =>
    let t := trim grp
    if t = [] ∨ t = "void".data then []
    else (splitParams t 0 []).filterMap paramName

/-- `get_return_type` from the source: text before the first `(`, stripped;
all words but the last joined by single spaces (empty when fewer than two
words). -/
def get_return_type (line : List Char) : String :=
  let sig := trim (line.takeWhile (· ≠ '('))
  let words := splitWs sig
  if words.length ≥ 2 then String.intercalate " " (words.dropLast.map String.mk)
  else ""

/-!
### `check_raw_char_params`
-/

/-- `char\s*\*` at this position. -/
def charStarAt (cs : List Char) : Bool :=
  if ("char".data).isPrefixOf cs then
    match (cs.drop 4).dropWhile isSpaceCh with
    | '*' :: _ => true
    | _ => false
  else false

/-- The fixed-width lookbehind `(?<!const\s)`: the six characters before
this position (nearest first) spell `const` plus one whitespace. -/
def constBefore (revPre : List Char) : Bool :=
  match revPre with
  | s :: 't' :: 's' :: 'n' :: 'o' :: 'c' :: _ => isSpaceCh s
  | _ => false

def rawCharScan : List Char → List Char → Bool
  | _, [] => false
  | revPre, c :: rest =>
    (charStarAt (c :: rest) && !constBefore revPre) || rawCharScan (c :: revPre) rest

/-- `check_raw_char_params` from the source. -/
def check_raw_char_params (line : List Char) : Bool :=
  match extractParen line with
  | none => false
  | some params =>
    if containsSub "argv".data params || containsSub "argc".data params then false
    else rawCharScan [] params

/-!
### `ALLOW_PATTERN` — `(?://|/\*)\s*FERN_STYLE:\s*allow\(([^)]+)\)`
-/

def allowAt (cs : List Char) : Option (List Char) := do
  let r1 ← afterLit "//".data cs <|> afterLit "/*".data cs
  let r3 ← afterLit "FERN_STYLE:".data (r1.dropWhile isSpaceCh)
  let r5 ← afterLit "allow(".data (r3.dropWhile isSpaceCh)
  match r5.span (· ≠ ')') with
  | (grp, ')' :: _) => if grp = [] then none else some grp
  | _ => none

def allowSearch : List Char → Option (List Char)
  | [] => none
  | c :: rest => allowAt (c :: rest) <|> allowSearch rest

/-- The set of rule names added for one line: the first `ALLOW_PATTERN`
match's group, split on commas, each piece stripped. -/
def allowRulesOf (line : List Char) : Finset String :=
  match allowSearch line with
  | none => ∅
  | some grp => ((splitOnCh ',' grp).map (fun p => String.mk (trim p))).toFinset

/-!
### Fact patterns (assertions, malloc/free, loops)
-/

/-- `\bkw\s*\(` at this position (`kw` starts with a word character). -/
def kwCallAt (kw : List Char) (prev : Option Char) (cs : List Char) : Bool :=
  boundaryB prev && kw.isPrefixOf cs &&
    (match (cs.drop kw.length).dropWhile isSpaceCh with
     | '(' :: _ => true
     | _ => false)

def kwCallSearch (kw : List Char) : Option Char → List Char → Bool
  | _, [] => false
  | prev, c :: rest => kwCallAt kw prev (c :: rest) || kwCallSearch kw (some c) rest

def lineHasAssert (l : List Char) : Bool := kwCallSearch "assert".data none l
def lineHasMalloc (l : List Char) : Bool := kwCallSearch "malloc".data none l
def lineHasFree (l : List Char) : Bool := kwCallSearch "free".data none l

/-- `\bwhile\s*\(\s*LIT\s*\)` at this position. -/
def whileLitAt (lit : List Char) (prev : Option Char) (cs : List Char) : Bool :=
  boundaryB prev && ("while".data).isPrefixOf cs &&
    (match (cs.drop 5).dropWhile isSpaceCh with
     | '(' :: r2 =>
       let r3 := r2.dropWhile isSpaceCh
       lit.isPrefixOf r3 &&
         (match (r3.drop lit.length).dropWhile isSpaceCh with
          | ')' :: _ => true
          | _ => false)
     | _ => false)

def whileLitSearch (lit : List Char) : Option Char → List Char → Bool
  | _, [] => false
  | prev, c :: rest => whileLitAt lit prev (c :: rest) || whileLitSearch lit (some c) rest

/-- `\bfor\s*\(\s*;\s*;\s*\)` at this position. -/
def forSemiAt (prev : Option Char) (cs : List Char) : Bool :=
  boundaryB prev && ("for".data).isPrefixOf cs &&
    (match (cs.drop 3).dropWhile isSpaceCh with
     | '(' :: r2 =>
       match r2.dropWhile isSpaceCh with
       | ';' :: r3 =>
         match r3.dropWhile isSpaceCh with
         | ';' :: r4 =>
           match r4.dropWhile isSpaceCh with
           | ')' :: _ => true
           | _ => false
         | _ => false
       | _ => false
     | _ => false)

def forSemiSearch : Option Char → List Char → Bool
  | _, [] => false
  | prev, c :: rest => forSemiAt prev (c :: rest) || forSemiSearch (some c) rest

/-- `\bwhile\s*\(([^)]+)\)` at this position, returning the captured
condition. -/
def whileCondAt (prev : Option Char) (cs : List Char) : Option (List Char) :=
  if boundaryB prev && ("while".data).isPrefixOf cs then
    match (cs.drop 5).dropWhile isSpaceCh with
    | '(' :: r2 =>
      match r2.span (· ≠ ')') with
      | (cond, ')' :: _) => if cond = [] then none else some cond
      | _ => none
    | _ => none
  else none

def whileCondSearch : Option Char → List Char → Option (List Char)
  | _, [] => none
  | prev, c :: rest => whileCondAt prev (c :: rest) <|> whileCondSearch (some c) rest

/-- The four unbounded-loop checks of the body loop, combined. -/
def lineUnbounded (l : List Char) : Bool :=
  whileLitSearch "1".data none l || whileLitSearch "true".data none l ||
  forSemiSearch none l ||
  (match whileCondSearch none l with
   | some cond =>
     !(cond.any (fun c => c = '<' || c = '>' || c = '=' || c = '!')) &&
       !(trim cond = "0".data || trim cond = "false".data)
   | none => false)

/-!
## DocCommentResolver: `parse_doc_comment`
-/

structure DocComment where
  exists_ : Bool := false
  has_description : Bool := false
  documented_params : Finset String := ∅
  has_return : Bool := false
  raw_text : String := ""
deriving DecidableEq

/-- `@param\s+(\w+)` at this position, returning the captured name. -/
def paramTagAt (cs : List Char) : Option String :=
  match afterLit "@param".data cs with
  | none => none
  | some r =>
    match r with
    | c :: rest =>
      if isSpaceCh c then
        let w := (rest.dropWhile isSpaceCh).takeWhile isWordCh
        if w = [] then none else some (String.mk w)
      else none
    | [] => none

/-- The set of names captured by `re.finditer(r"@param\s+(\w+)", text)`.
A match's interior contains no `@`, so non-overlapping iteration visits the
same set of matches as trying every start position. -/
def paramTags : List Char → Finset String
  | [] => ∅
  | c :: rest =>
    (match paramTagAt (c :: rest) with
     | some n => {n}
     | none => (∅ : Finset String)) ∪ paramTags rest

/-- `@returns?\b` at this position: the greedy optional `s` is taken when
the boundary after it holds, otherwise the engine retries without it (and
then `s` itself is a word character, so the boundary fails). -/
def returnTagAt (cs : List Char) : Bool :=
  match afterLit "@return".data cs with
  | none => false
  | some r =>
    match r with
    | [] => true
    | c :: rest =>
      if c = 's' then
        match rest with
        | [] => true
        | d :: _ => !(isWordCh d)
      else !(isWordCh c)

def returnTagSearch : List Char → Bool
  | [] => false
  | c :: rest => returnTagAt (c :: rest) || returnTagSearch rest

/-- Parse a found `/* ... */` block (raw lines from the starter line to the
line ending in `*/`). -/
def blockDoc (commentLines : List (List Char)) : DocComment :=
  let text := List.intercalate ['\n'] commentLines
  let content := removeAll "*/".data (removeAll "/*".data (removeAll "/**".data text))
  let contentLines := (splitOnCh '\n' content).map (fun l => trim ((trim l).dropWhile (· = '*')))
  let hasDesc := contentLines.any (fun cl => cl ≠ [] && !(("@".data).isPrefixOf cl))
  { exists_ := true, has_description := hasDesc,
    documented_params := paramTags text, has_return := returnTagSearch text,
    raw_text := String.mk text }

/-- Parse a run of `///` doc lines (already stripped). -/
def slashDoc (docLines : List (List Char)) : DocComment :=
  let text := List.intercalate ['\n'] docLines
  let content := removeAll "///".data text
  { exists_ := true, has_description := (trim content).length > 5,
    documented_params := paramTags text, has_return := returnTagSearch text,
    raw_text := String.mk text }

def getLn (lines : List (List Char)) (i : Nat) : List Char := lines.getD i []

/-- Inner backward loop of the block branch: `for j in range(i, ss-1, -1)`,
looking for a line starting with `/**` or `/*`.  The counter argument is
`j + 1` for the index `j` examined next. -/
def blockStartScan (lines : List (List Char)) (ss iEnd : Nat) : Nat → DocComment
  | 0 => {}
  | k + 1 =>
    if k + 1 ≤ ss then {}
    else
      let check := trim (getLn lines k)
      if ("/**".data).isPrefixOf check ∨ ("/*".data).isPrefixOf check then
        blockDoc ((lines.drop k).take (iEnd + 1 - k))
      else blockStartScan lines ss iEnd k

/-- Inner backward loop of the `///` branch: collect consecutive `///`
lines (stripped), skipping blank lines, stopping at anything else. -/
def slashCollect (lines : List (List Char)) (ss : Nat) (acc : List (List Char)) :
    Nat → List (List Char)
  | 0 => acc
  | k + 1 =>
    if k + 1 ≤ ss then acc
    else
      let prev := trim (getLn lines k)
      if ("///".data).isPrefixOf prev then slashCollect lines ss (prev :: acc) k
      else if prev = [] then slashCollect lines ss acc k
      else acc

/-- Outer backward loop: `for i in range(idx-1, ss-1, -1)`.  The counter
argument is `i + 1` for the index `i` examined next. -/
def docOuterScan (lines : List (List Char)) (ss : Nat) : Nat → DocComment
  | 0 => {}
  | i + 1 =>
    if i + 1 ≤ ss then {}
    else
      let line := trim (getLn lines i)
      if line = [] then docOuterScan lines ss i
      else if ("*/".data).isSuffixOf line then blockStartScan lines ss i (i + 1)
      else if ("///".data).isPrefixOf line then slashDoc (slashCollect lines ss [line] i)
      else if ¬ (("//".data).isPrefixOf line) ∧ ¬ (("*".data).isPrefixOf line) then {}
      else docOuterScan lines ss i

/-- `parse_doc_comment` from the source (`idx` is the 0-indexed signature
line; `search_start = max(0, idx - 30)` is natural subtraction). -/
def parse_doc_comment (lines : List (List Char)) (idx : Nat) : DocComment :=
  docOuterScan lines (idx - 30) idx

/-!
## FunctionBoundaryScanner + FactCollector: `extract_functions`
-/

/-- The per-line facts accumulated by the body loop. -/
structure BodyFacts where
  assertion_count : Nat := 0
  has_unbounded_loop : Bool := false
  has_malloc : Bool := false
  has_free : Bool := false
  allowed_rules : Finset String := ∅
deriving DecidableEq

/-- One iteration of the body loop for the non-brace facts: allow comments,
assertions, loop shapes and malloc/free are all checked on the raw line. -/
def updateFacts (f : BodyFacts) (l : List Char) : BodyFacts :=
  { assertion_count := f.assertion_count + (if lineHasAssert l then 1 else 0),
    has_unbounded_loop := f.has_unbounded_loop || lineUnbounded l,
    has_malloc := f.has_malloc || lineHasMalloc l,
    has_free := f.has_free || lineHasFree l,
    allowed_rules := f.allowed_rules ∪ allowRulesOf l }

/-- `count('{') - count('}')` of a line. -/
def braceDelta (l : List Char) : Int := (l.count '{' : Int) - (l.count '}' : Int)

/-- The body loop: `while j < len(lines) and brace_count > 0`.  The brace
delta is computed on the `strip_string_literals`-transformed line; the
facts on the raw line.  Returns the final `j` (the 1-indexed `end_line`)
and the accumulated facts. -/
def scanBody : List (List Char) → Nat → Int → BodyFacts → Nat × BodyFacts
  | [], j, _, f => (j, f)
  | l :: rest, j, bc, f =>
    if bc ≤ 0 then (j, f)
    else scanBody rest (j + 1) (bc + braceDelta (stripAux none l)) (updateFacts f l)

structure Function where
  name : String
  start_line : Nat
  end_line : Nat
  assertion_count : Nat
  has_unbounded_loop : Bool
  has_malloc : Bool
  has_free : Bool
  has_doc_comment : Bool
  has_raw_char_params : Bool
  doc_comment : DocComment
  param_names : List String
  return_type : String
  allowed_rules : Finset String
deriving DecidableEq

/-- The `Function` record built when `func_pattern` matched line `i`
(0-indexed) with captured name `fname`. -/
def buildFunction (lines : List (List Char)) (i : Nat) (fname : String) : Function :=
  let line := getLn lines i
  let doc := parse_doc_comment lines i
  let scanned := scanBody (lines.drop (i + 1)) (i + 1) 1 {}
  { name := fname, start_line := i + 1, end_line := scanned.1,
    assertion_count := scanned.2.assertion_count,
    has_unbounded_loop := scanned.2.has_unbounded_loop,
    has_malloc := scanned.2.has_malloc, has_free := scanned.2.has_free,
    has_doc_comment := doc.exists_ && doc.has_description,
    has_raw_char_params := check_raw_char_params line,
    doc_comment := doc,
    param_names := extract_function_params line,
    return_type := get_return_type line,
    allowed_rules := scanned.2.allowed_rules ∪ allowRulesOf line }

/-- The scanning loop of `extract_functions`; `fuel` only bounds the number
of iterations, and `lines.length + 1` always suffices because every
iteration advances `i` by at least one (`end_line ≥ i + 1`). -/
def extractLoop (lines : List (List Char)) : Nat → Nat → List Function
  | 0, _ => []
  | fuel + 1, i =>
    if i < lines.length then
      let line := getLn lines i
      if ("#".data).isPrefixOf (trim line) ∨ ("//".data).isPrefixOf (trim line) then
        extractLoop lines fuel (i + 1)
      else
        match funcPatternName line with
        | none => extractLoop lines fuel (i + 1)
        | some fname =>
          buildFunction lines i fname ::
            extractLoop lines fuel (buildFunction lines i fname).end_line
    else []

/-- `extract_functions` from the source. -/
def extract_functions (content : String) : List Function :=
  let lines := splitOnCh '\n' content.data
  extractLoop lines (lines.length + 1) 0

/-!
## File-level rule: `check_manual_tagged_unions`
-/

structure Violation where
  file : String
  line : Nat
  function : String
  rule : String
  message : String
  severity : String := "error"
deriving DecidableEq

/-- `\benum\s*\{[^}]+\}\s*(kind|tag|type)\s*;` at this position.  The three
alternatives have pairwise-incompatible literals, so at most one can apply
at a given position. -/
def enumKindAt (prev : Option Char) (cs : List Char) : Bool :=
  boundaryB prev && ("enum".data).isPrefixOf cs &&
    (match (cs.drop 4).dropWhile isSpaceCh with
     | '{' :: r2 =>
       match r2.span (· ≠ '}') with
       | (body, '}' :: r3) =>
         body ≠ [] &&
           (let r4 := r3.dropWhile isSpaceCh
            match afterLit "kind".data r4 <|> afterLit "tag".data r4 <|>
                afterLit "type".data r4 with
            | some r5 =>
              match r5.dropWhile isSpaceCh with
              | ';' :: _ => true
              | _ => false
            | none => false)
       | _ => false
     | _ => false)

def enumKindSearch : Option Char → List Char → Bool
  | _, [] => false
  | prev, c :: rest => enumKindAt prev (c :: rest) || enumKindSearch (some c) rest

/-- `check_manual_tagged_unions` from the source.  The file-level allow
substring is tested on every iteration but against the whole (constant)
content, so its presence empties the result; `split("\n")` never returns an
empty list, so the first iteration always happens. -/
def check_manual_tagged_unions (filepath : String) (content : List Char) : List Violation :=
  if containsSub "FERN_STYLE: allow(no-tagged-union)".data content then []
  else
    (splitOnCh '\n' content).enum.filterMap (fun pr =>
      if enumKindSearch none pr.2 then
        some { file := filepath, line := pr.1 + 1, function := "",
               rule := "no-tagged-union",
               message := "Manual tagged union detected - use Datatype99 instead",
               severity := "warning" }
      else none)

/-!
## RuleEngine: the per-function rule block of `check_file`
-/

/-- The per-function rule checks of `check_file`, in source order. -/
def functionViolations (filepath : String) (func : Function) : List Violation :=
  let line_count : Int := (func.end_line : Int) - (func.start_line : Int)
  (if func.assertion_count < 2 ∧ "assertion-density" ∉ func.allowed_rules then
    [{ file := filepath, line := func.start_line, function := func.name,
       rule := "assertion-density",
       message := toString func.assertion_count ++ " assertions (need 2+)",
       severity := "error" }]
   else []) ++
  (if line_count > 70 ∧ "function-length" ∉ func.allowed_rules then
    [{ file := filepath, line := func.start_line, function := func.name,
       rule := "function-length",
       message := toString line_count ++ " lines (max 70)",
       severity := "error" }]
   else []) ++
  (if func.has_malloc = true ∧ "no-malloc" ∉ func.allowed_rules then
    [{ file := filepath, line := func.start_line, function := func.name,
       rule := "no-malloc",
       message := "Uses malloc() - use arena allocation instead",
       severity := "error" }]
   else []) ++
  (if func.has_free = true ∧ "no-free" ∉ func.allowed_rules then
    [{ file := filepath, line := func.start_line, function := func.name,
       rule := "no-free",
       message := "Uses free() - use arena allocation instead",
       severity := "error" }]
   else []) ++
  (if func.has_unbounded_loop = true ∧ "bounded-loops" ∉ func.allowed_rules then
    [{ file := filepath, line := func.start_line, function := func.name,
       rule := "bounded-loops",
       message := "Unbounded loop detected - add explicit limit",
       severity := "warning" }]
   else []) ++
  (if func.has_doc_comment = false ∧ "doc-comment" ∉ func.allowed_rules then
    [{ file := filepath, line := func.start_line, function := func.name,
       rule := "doc-comment",
       message := "Missing doc comment (add /** ... */ before function)",
       severity := "warning" }]
   else if func.has_doc_comment = true ∧ "doc-style" ∉ func.allowed_rules then
    (let missing := func.param_names.toFinset \ func.doc_comment.documented_params
     if missing ≠ ∅ ∧ "doc-params" ∉ func.allowed_rules then
      [{ file := filepath, line := func.start_line, function := func.name,
         rule := "doc-params",
         message := "Missing @param for: " ++
           String.intercalate ", " (missing.sort (· ≤ ·)),
         severity := "warning" }]
     else []) ++
    (if func.return_type ≠ "" ∧ func.return_type ≠ "void" ∧
        "doc-return" ∉ func.allowed_rules ∧ func.doc_comment.has_return = false then
      [{ file := filepath, line := func.start_line, function := func.name,
         rule := "doc-return",
         message := "Missing @return for non-void function",
         severity := "warning" }]
     else [])
   else []) ++
  (if func.has_raw_char_params = true ∧ "no-raw-char" ∉ func.allowed_rules then
    [{ file := filepath, line := func.start_line, function := func.name,
       rule := "no-raw-char",
       message := "Raw char* parameter - use sds or const char* instead",
       severity := "warning" }]
   else [])

/-- `check_file` from the source.  The file read is modelled by an
`Except`: `.error e` is an unreadable file whose exception rendered as the
string `e`. -/
def check_file (filepath : String) (content : Except String String) : List Violation :=
  match content with
  | .error e =>
    [{ file := filepath, line := 0, function := "", rule := "read-error",
       message := "Could not read file: " ++ e, severity := "error" }]
  | .ok content =>
    check_manual_tagged_unions filepath content.data ++
      (extract_functions content).flatMap (functionViolations filepath)

/-- The scanning loop of `main`: every file contributes its violations and
scanning always continues with the next file. -/
def scan_files (files : List (String × Except String String)) : List Violation :=
  files.flatMap (fun pr => check_file pr.1 pr.2)

/-!
## Characterization lemmas for the body scan and the extraction loop
-/

/-- The body loop processes some prefix of the remaining lines, returns the
index just past it, and folds `updateFacts` over exactly that prefix. -/
theorem scanBody_spec : ∀ (rest : List (List Char)) (j : Nat) (bc : Int) (f0 : BodyFacts),
    ∃ n, n ≤ rest.length ∧
      scanBody rest j bc f0 = (j + n, (rest.take n).foldl updateFacts f0) := by
  intro rest
  induction rest with
  | nil => intro j bc f0; exact ⟨0, by simp [scanBody]⟩
  | cons l rest ih =>
    intro j bc f0
    by_cases hbc : bc ≤ 0
    · exact ⟨0, by simp [scanBody, hbc]⟩
    · obtain ⟨n, hn, heq⟩ := ih (j + 1) (bc + braceDelta (stripAux none l)) (updateFacts f0 l)
      refine ⟨n + 1, by simpa using Nat.succ_le_succ hn, ?_⟩
      simp only [scanBody, if_neg hbc, heq, List.take_succ_cons, List.foldl_cons]
      congr 1
      omega

theorem scanBody_endIdx_ge (rest : List (List Char)) (j : Nat) (bc : Int) (f0 : BodyFacts) :
    j ≤ (scanBody rest j bc f0).1 := by
  obtain ⟨n, _, heq⟩ := scanBody_spec rest j bc f0
  simp [heq]

theorem foldl_facts_assert (ls : List (List Char)) (f0 : BodyFacts) :
    (ls.foldl updateFacts f0).assertion_count =
      f0.assertion_count + ls.countP (fun l => lineHasAssert l) := by
  induction ls generalizing f0 with
  | nil => simp
  | cons l ls ih => simp [ih, updateFacts, List.countP_cons]; split <;> omega

theorem foldl_facts_malloc (ls : List (List Char)) (f0 : BodyFacts) :
    (ls.foldl updateFacts f0).has_malloc = (f0.has_malloc || ls.any lineHasMalloc) := by
  induction ls generalizing f0 with
  | nil => simp
  | cons l ls ih => simp [ih, updateFacts, Bool.or_assoc]

theorem foldl_facts_free (ls : List (List Char)) (f0 : BodyFacts) :
    (ls.foldl updateFacts f0).has_free = (f0.has_free || ls.any lineHasFree) := by
  induction ls generalizing f0 with
  | nil => simp
  | cons l ls ih => simp [ih, updateFacts, Bool.or_assoc]

theorem foldl_facts_loop (ls : List (List Char)) (f0 : BodyFacts) :
    (ls.foldl updateFacts f0).has_unbounded_loop =
      (f0.has_unbounded_loop || ls.any lineUnbounded) := by
  induction ls generalizing f0 with
  | nil => simp
  | cons l ls ih => simp [ih, updateFacts, Bool.or_assoc]

/-- Union of the per-line allow sets over a list of lines. -/
def unionAllows (ls : List (List Char)) : Finset String :=
  ls.foldr (fun l acc => allowRulesOf l ∪ acc) ∅

theorem foldl_facts_allowed (ls : List (List Char)) (f0 : BodyFacts) :
    (ls.foldl updateFacts f0).allowed_rules = f0.allowed_rules ∪ unionAllows ls := by
  induction ls generalizing f0 with
  | nil => simp [unionAllows]
  | cons l ls ih =>
    simp [ih, updateFacts, unionAllows, Finset.union_assoc, Finset.union_comm (allowRulesOf l)]

/-- Every function produced by the extraction loop is `buildFunction` at
some recognized signature line. -/
theorem extractLoop_mem (lines : List (List Char)) :
    ∀ (fuel i : Nat) (f : Function), f ∈ extractLoop lines fuel i →
      ∃ k fname, funcPatternName (getLn lines k) = some fname ∧
        f = buildFunction lines k fname := by
  intro fuel
  induction fuel with
  | zero => intro i f h; simp [extractLoop] at h
  | succ fuel ih =>
    intro i f h
    by_cases hlt : i < lines.length
    · by_cases hskip : ("#".data).isPrefixOf (trim (getLn lines i)) ∨
          ("//".data).isPrefixOf (trim (getLn lines i))
      · rw [extractLoop, if_pos hlt, if_pos hskip] at h
        exact ih (i + 1) f h
      · rcases hm : funcPatternName (getLn lines i) with _ | fname
        · rw [extractLoop, if_pos hlt, if_neg hskip, hm] at h
          exact ih (i + 1) f h
        · rw [extractLoop, if_pos hlt, if_neg hskip, hm] at h
          rcases List.mem_cons.mp h with rfl | h'
          · exact ⟨i, fname, hm, rfl⟩
          · exact ih _ f h'
    · rw [extractLoop, if_neg hlt] at h
      exact absurd h (List.not_mem_nil f)

/-- Membership in a one-element conditional list. -/
theorem mem_ite_singleton {α : Type} {P : Prop} [Decidable P] {a v : α} :
    v ∈ (if P then [a] else []) ↔ P ∧ v = a := by
  split <;> simp_all

/-- Every violation from the file-level tagged-union check carries the rule
`no-tagged-union`. -/
theorem tagged_union_rule (fp : String) (content : List Char) (v : Violation)
    (h : v ∈ check_manual_tagged_unions fp content) : v.rule = "no-tagged-union" := by
  unfold check_manual_tagged_unions at h
  split at h
  · exact absurd h (List.not_mem_nil v)
  · obtain ⟨pr, _, heq⟩ := List.mem_filterMap.mp h
    split at heq
    · cases heq; rfl
    · cases heq

/-- Every per-function violation is located at the function's signature
line and names the function. -/
theorem functionViolations_fields (fp : String) (func : Function) (v : Violation)
    (h : v ∈ functionViolations fp func) :
    v.line = func.start_line ∧ v.function = func.name := by
  simp only [functionViolations, List.mem_append, mem_ite_singleton] at h
  rcases h with ((((((h | h) | h) | h) | h) | h) | h)
  all_goals try (obtain ⟨-, rfl⟩ := h; exact ⟨rfl, rfl⟩)
  split at h
  · obtain rfl := List.mem_singleton.mp h
    exact ⟨rfl, rfl⟩
  · split at h
    · rcases List.mem_append.mp h with h' | h' <;>
        (obtain ⟨-, rfl⟩ := mem_ite_singleton.mp h'; exact ⟨rfl, rfl⟩)
    · exact absurd h (List.not_mem_nil v)

/-!
## Claims
-/

/-- C7: for every input line, `strip_string_literals` returns a string of
exactly the same length as its input, including lines with unterminated
literals and lines ending in an escape character. -/
theorem c7_strip_length (line : String) :
    (strip_string_literals line).length = line.length :=
  stripAux_length none line.data

/-- C10: `strip_string_literals` is idempotent: stripping an already
stripped line changes nothing. -/
theorem c10_strip_idempotent (line : String) :
    strip_string_literals (strip_string_literals line) = strip_string_literals line :=
  congrArg String.mk (stripAux_idem none line.data (Or.inl rfl))

/-- C8: a file that cannot be read produces exactly one violation, with
rule `read-error`, severity `error`, line 0 and empty function name, and
nothing else for that file; the scan of the remaining files continues
unchanged. -/
theorem c8_read_error (filepath err : String) (rest : List (String × Except String String)) :
    check_file filepath (.error err) =
      [{ file := filepath, line := 0, function := "", rule := "read-error",
         message := "Could not read file: " ++ err, severity := "error" }] ∧
    scan_files ((filepath, .error err) :: rest) =
      { file := filepath, line := 0, function := "", rule := "read-error",
        message := "Could not read file: " ++ err, severity := "error" } :: scan_files rest := by
  exact ⟨rfl, by simp [scan_files, check_file]⟩

/-- C4: the `end_line` computation of the body loop depends only on the
per-line brace counts of the `strip_string_literals`-transformed lines: two
bodies whose lines have pairwise equal stripped brace deltas produce the
same end index, whatever the raw lines contain.  In particular a brace
occurring only inside a string literal (blanked by the stripper) never
changes the computed `end_line`. -/
theorem c4_end_line_stripped (l₁ l₂ : List (List Char)) (j : Nat) (bc : Int)
    (f₁ f₂ : BodyFacts)
    (h : List.Forall₂ (fun a b =>
      braceDelta (strip_string_literals (String.mk a)).data =
        braceDelta (strip_string_literals (String.mk b)).data) l₁ l₂) :
    (scanBody l₁ j bc f₁).1 = (scanBody l₂ j bc f₂).1 := by
  induction h generalizing j bc f₁ f₂ with
  | nil => rfl
  | @cons a b l₁' l₂' hab htail ih =>
    have hab' : braceDelta (stripAux none a) = braceDelta (stripAux none b) := hab
    by_cases hbc : bc ≤ 0
    · simp [scanBody, hbc]
    · simp only [scanBody, if_neg hbc, hab']
      exact ih _ _ _ _

/-- C4 witness: a body line whose only brace sits inside a string literal
gives the same end line as the body with that brace removed. -/
theorem c4_witness :
    (scanBody ["  log(\"\x7b\");".data, "\x7d".data] 1 1 {}).1 =
      (scanBody ["  log(\"\");".data, "\x7d".data] 1 1 {}).1 :=
  c4_end_line_stripped _ _ 1 1 {} {}
    (List.Forall₂.cons (by decide) (List.Forall₂.cons (by decide) List.Forall₂.nil))

/-- C5: for a function whose `allowed_rules` does not contain
`function-length`, an error-severity `function-length` violation is
produced exactly when `end_line - start_line` exceeds 70. -/
theorem c5_function_length_rule (filepath : String) (func : Function)
    (h : "function-length" ∉ func.allowed_rules) :
    (∃ v ∈ functionViolations filepath func,
        v.rule = "function-length" ∧ v.severity = "error") ↔
      (func.end_line : Int) - (func.start_line : Int) > 70 := by
  constructor
  · rintro ⟨v, hv, hrule, -⟩
    simp only [functionViolations, List.mem_append, mem_ite_singleton] at hv
    rcases hv with ((((((hv | hv) | hv) | hv) | hv) | hv) | hv)
    · obtain ⟨-, rfl⟩ := hv
      exact absurd hrule (by simp)
    · obtain ⟨⟨hgt, -⟩, rfl⟩ := hv
      exact hgt
    · obtain ⟨-, rfl⟩ := hv
      exact absurd hrule (by simp)
    · obtain ⟨-, rfl⟩ := hv
      exact absurd hrule (by simp)
    · obtain ⟨-, rfl⟩ := hv
      exact absurd hrule (by simp)
    · split at hv
      · obtain rfl := List.mem_singleton.mp hv
        exact absurd hrule (by simp)
      · split at hv
        · rcases List.mem_append.mp hv with h' | h' <;>
            (obtain ⟨-, rfl⟩ := mem_ite_singleton.mp h'; exact absurd hrule (by simp))
        · exact absurd hv (List.not_mem_nil v)
    · obtain ⟨-, rfl⟩ := hv
      exact absurd hrule (by simp)
  · intro hgt
    refine ⟨{ file := filepath, line := func.start_line, function := func.name,
              rule := "function-length",
              message := toString ((func.end_line : Int) - (func.start_line : Int)) ++
                " lines (max 70)",
              severity := "error" }, ?_, rfl, rfl⟩
    simp only [functionViolations, List.mem_append, mem_ite_singleton]
    exact Or.inl (Or.inl (Or.inl (Or.inl (Or.inl (Or.inr ⟨⟨hgt, h⟩, trivial⟩)))))

/-- C5 witness: a 72-line span (end−start = 71 > 70) triggers the rule and
a 71-line span (end−start = 70) does not. -/
theorem c5_witness :
    (∃ v ∈ functionViolations "a.c"
        (⟨"f", 1, 72, 2, false, false, false, true, false,
          ⟨true, true, ∅, true, ""⟩, [], "void", ∅⟩ : Function),
        v.rule = "function-length" ∧ v.severity = "error") ∧
    ¬ (∃ v ∈ functionViolations "a.c"
        (⟨"g", 1, 71, 2, false, false, false, true, false,
          ⟨true, true, ∅, true, ""⟩, [], "void", ∅⟩ : Function),
        v.rule = "function-length" ∧ v.severity = "error") := by
  constructor
  · exact (c5_function_length_rule "a.c" _ (by decide)).mpr (by decide)
  · intro hex
    exact absurd ((c5_function_length_rule "a.c" _ (by decide)).mp hex) (by decide)

/-- C9: every violation from checking a readable file, other than the
file-level `no-tagged-union` rule (and the unreachable `read-error`), is
reported at some extracted function's `start_line` with that function's
name — never at the line of the offending construct inside the body. -/
theorem c9_violation_line (filepath content : String) (v : Violation)
    (hv : v ∈ check_file filepath (.ok content))
    (h1 : v.rule ≠ "no-tagged-union") (h2 : v.rule ≠ "read-error") :
    ∃ f ∈ extract_functions content, v.line = f.start_line ∧ v.function = f.name := by
  have hv' : v ∈ check_manual_tagged_unions filepath content.data ++
      (extract_functions content).flatMap (functionViolations filepath) := hv
  rcases List.mem_append.mp hv' with h | h
  · exact absurd (tagged_union_rule _ _ _ h) h1
  · obtain ⟨f, hf, hvf⟩ := List.mem_flatMap.mp h
    obtain ⟨hl, hn⟩ := functionViolations_fields _ _ _ hvf
    exact ⟨f, hf, hl, hn⟩

/-- C9 witness: the assertion-density violation of a concrete two-line file
is located at the function's signature line. -/
theorem c9_witness :
    ∃ f ∈ extract_functions "int f(void) \x7b\n\x7d",
      ({ file := "t.c", line := 1, function := "f", rule := "assertion-density",
         message := "0 assertions (need 2+)", severity := "error" } : Violation).line =
        f.start_line ∧
      ({ file := "t.c", line := 1, function := "f", rule := "assertion-density",
         message := "0 assertions (need 2+)", severity := "error" } : Violation).function =
        f.name :=
  c9_violation_line "t.c" "int f(void) \x7b\n\x7d" _ (by decide) (by decide) (by decide)

/-- C2 counterexample: a line holding a complete one-line function body —
code after the opening brace — IS recognized as a function start, both by
the signature pattern and by the extraction loop. -/
theorem c2_counterexample :
    funcPatternName "int f(void) \x7b return 0; \x7d".data = some "f" ∧
    (extract_functions "int f(void) \x7b return 0; \x7d").map
        (fun f => (f.name, f.start_line)) = [("f", 1)] := by
  exact ⟨rfl, by decide⟩

/-!
### The shape of recognized lines (C2, amended)

`ShapeStart` below renders the claim's recognition shape — after optional
leading modifiers, `<return-type-tokens> <identifier> ( <parameter-text> )
{` — as a prefix of the line, with arbitrary text allowed after the
opening brace (the amendment).  The amended C2 theorem proves the claim's
"only if" direction against it for every input line.
-/

/-- The shape from the identifier on: `<identifier> \s* ( <parameter-text>
) \s* {` followed by arbitrary text.  The identifier is a nonempty word
token and the parameter text contains no `)`. -/
def TailShape (cs : List Char) : Prop :=
  ∃ nm sp1 params sp2 rest : List Char,
    cs = nm ++ (sp1 ++ ('(' :: (params ++ (')' :: (sp2 ++ ('{' :: rest)))))) ∧
    nm ≠ [] ∧ nm.all isWordCh = true ∧ sp1.all isSpaceCh = true ∧
    params.all (fun c => c ≠ ')') = true ∧ sp2.all isSpaceCh = true

/-- One or more return-type tokens (`[\w\*]+`), each followed by a
nonempty whitespace run. -/
inductive RetTokens : List Char → Prop where
  | one : ∀ (tok sp : List Char), tok ≠ [] → tok.all isWordStar = true →
      sp ≠ [] → sp.all isSpaceCh = true → RetTokens (tok ++ sp)
  | cons : ∀ (tok sp rest : List Char), tok ≠ [] → tok.all isWordStar = true →
      sp ≠ [] → sp.all isSpaceCh = true → RetTokens rest →
      RetTokens (tok ++ (sp ++ rest))

/-- Return-type tokens followed by the identifier/parameter/brace tail. -/
def RepsThenTail (cs : List Char) : Prop :=
  ∃ reps tail : List Char, cs = reps ++ tail ∧ RetTokens reps ∧ TailShape tail

/-- The optional leading modifiers `(?:static\s+)?(?:inline\s+)?`. -/
def ModsOk (mods : List Char) : Prop :=
  ∃ s i : List Char, mods = s ++ i ∧
    (s = [] ∨ ∃ sp, sp ≠ [] ∧ sp.all isSpaceCh = true ∧ s = "static".data ++ sp) ∧
    (i = [] ∨ ∃ sp, sp ≠ [] ∧ sp.all isSpaceCh = true ∧ i = "inline".data ++ sp)

/-- A line that begins with the recognition shape: optional modifiers,
then return-type tokens, identifier, parenthesized parameter text and the
opening brace — with anything allowed after the brace. -/
def ShapeStart (cs : List Char) : Prop :=
  ∃ mods rest : List Char, cs = mods ++ rest ∧ ModsOk mods ∧ RepsThenTail rest

/-- Intermediate invariant for the token walk: from the start of the
current token the input decomposes as return-type tokens before the tail,
or (when at least one token is already complete) directly as the tail. -/
def ShapeCore (cs : List Char) (hasRep : Bool) : Prop :=
  RepsThenTail cs ∨ (hasRep = true ∧ TailShape cs)

theorem repsThenTail_prepend (tok sp t : List Char) (ht : tok ≠ [])
    (hw : tok.all isWordStar = true) (hs : sp ≠ []) (hsp : sp.all isSpaceCh = true)
    (h : RepsThenTail t ∨ TailShape t) : RepsThenTail (tok ++ (sp ++ t)) := by
  rcases h with ⟨reps, tail, rfl, hr, htail⟩ | htail
  · exact ⟨tok ++ (sp ++ reps), tail, by simp [List.append_assoc],
      RetTokens.cons tok sp reps ht hw hs hsp hr, htail⟩
  · exact ⟨tok ++ sp, t, by simp [List.append_assoc],
      RetTokens.one tok sp ht hw hs hsp, htail⟩

theorem sigInWs_sound : ∀ cs : List Char, sigAfterParen true cs = true →
    ∃ sp rest : List Char, cs = sp ++ ('{' :: rest) ∧ sp.all isSpaceCh = true := by
  intro cs
  induction cs with
  | nil => intro h; simp [sigAfterParen] at h
  | cons c rest ih =>
    intro h
    simp only [sigAfterParen] at h
    by_cases hc : c = '{'
    · subst hc
      exact ⟨[], rest, by simp, by simp⟩
    · rw [if_neg hc] at h
      by_cases hsp : isSpaceCh c
      · rw [if_pos hsp] at h
        obtain ⟨sp, r, heq, hsps⟩ := ih h
        exact ⟨c :: sp, r, by simp [heq], by simp [hsp, hsps]⟩
      · rw [if_neg hsp] at h
        exact absurd h (by simp)

theorem sigParen_sound : ∀ cs : List Char, sigAfterParen false cs = true →
    ∃ params sp rest : List Char, cs = params ++ (')' :: (sp ++ ('{' :: rest))) ∧
      params.all (fun c => c ≠ ')') = true ∧ sp.all isSpaceCh = true := by
  intro cs
  induction cs with
  | nil => intro h; simp [sigAfterParen] at h
  | cons c rest ih =>
    intro h
    simp only [sigAfterParen] at h
    by_cases hc : c = ')'
    · subst hc
      rw [if_pos rfl] at h
      obtain ⟨sp, r, heq, hsp⟩ := sigInWs_sound rest h
      exact ⟨[], sp, r, by simp [heq], by simp, hsp⟩
    · rw [if_neg hc] at h
      obtain ⟨params, sp, r, heq, hps, hsp⟩ := ih h
      refine ⟨c :: params, sp, r, by simp [heq], ?_, hsp⟩
      rw [List.all_cons, hps]
      simp [hc]

theorem sigScan_nil (inWs : Bool) (curRev : List Char) (hasRep : Bool) :
    sigScan inWs curRev hasRep [] = none := rfl

theorem sigScan_false_cons (curRev : List Char) (hasRep : Bool) (c : Char)
    (rest : List Char) :
    sigScan false curRev hasRep (c :: rest) =
      (if isWordStar c then sigScan false (c :: curRev) hasRep rest
       else if isSpaceCh c then sigScan true curRev hasRep rest
       else if c = '(' then
         (if hasRep ∧ curRev.all isWordCh then
           (if sigAfterParen false rest then some (String.mk curRev.reverse) else none)
          else none)
       else none) := rfl

theorem sigScan_true_cons (curRev : List Char) (hasRep : Bool) (c : Char)
    (rest : List Char) :
    sigScan true curRev hasRep (c :: rest) =
      (if isSpaceCh c then sigScan true curRev hasRep rest
       else if isWordStar c then sigScan false [c] true rest
       else if c = '(' then
         (if hasRep ∧ curRev.all isWordCh then
           (if sigAfterParen false rest then some (String.mk curRev.reverse) else none)
          else none)
       else none) := rfl

/-- Soundness of the token walk: a successful scan decomposes the input
from the start of the current token as the recognition shape.  The first
conjunct covers the in-token state, the second the in-whitespace state
(quantified over the whitespace already consumed since the token). -/
theorem sigScan_sound (rest : List Char) :
    (∀ (curRev : List Char) (hasRep : Bool) (nm : String),
      sigScan false curRev hasRep rest = some nm → curRev ≠ [] →
      curRev.all isWordStar = true → ShapeCore (curRev.reverse ++ rest) hasRep) ∧
    (∀ (curRev : List Char) (hasRep : Bool) (nm : String) (sp : List Char),
      sigScan true curRev hasRep rest = some nm → curRev ≠ [] →
      curRev.all isWordStar = true → sp ≠ [] → sp.all isSpaceCh = true →
      ShapeCore (curRev.reverse ++ (sp ++ rest)) hasRep) := by
  induction rest with
  | nil =>
    constructor
    · intro curRev hasRep nm h _ _
      rw [sigScan_nil] at h
      exact Option.noConfusion h
    · intro curRev hasRep nm sp h _ _ _ _
      rw [sigScan_nil] at h
      exact Option.noConfusion h
  | cons c rest ih =>
    obtain ⟨ihTok, ihWs⟩ := ih
    constructor
    · intro curRev hasRep nm h hne hws
      rw [sigScan_false_cons] at h
      by_cases hwsc : isWordStar c
      · rw [if_pos hwsc] at h
        have H := ihTok (c :: curRev) hasRep nm h (by simp)
          (by rw [List.all_cons, hws]; simp [hwsc])
        simpa [List.reverse_cons, List.append_assoc] using H
      · rw [if_neg hwsc] at h
        by_cases hspc : isSpaceCh c
        · rw [if_pos hspc] at h
          have H := ihWs curRev hasRep nm [c] h hne hws (by simp) (by simp [hspc])
          simpa using H
        · rw [if_neg hspc] at h
          by_cases hpar : c = '('
          · rw [if_pos hpar] at h
            split at h
            · split at h
              · rename_i hcond hap
                obtain ⟨hrep, hpure⟩ := hcond
                obtain ⟨params, sp2, r2, heqr, hps, hsp2⟩ := sigParen_sound rest hap
                refine Or.inr ⟨hrep, curRev.reverse, [], params, sp2, r2, ?_,
                  by simpa using hne, by simpa using hpure, by simp, hps, hsp2⟩
                subst hpar
                rw [heqr]
                simp
              · exact Option.noConfusion h
            · exact Option.noConfusion h
          · rw [if_neg hpar] at h
            exact Option.noConfusion h
    · intro curRev hasRep nm sp h hne hws hspne hspall
      rw [sigScan_true_cons] at h
      by_cases hspc : isSpaceCh c
      · rw [if_pos hspc] at h
        have H := ihWs curRev hasRep nm (sp ++ [c]) h hne hws (by simp)
          (by rw [List.all_append, hspall]; simp [hspc])
        simpa [List.append_assoc] using H
      · rw [if_neg hspc] at h
        by_cases hwsc : isWordStar c
        · rw [if_pos hwsc] at h
          have H := ihTok [c] true nm h (by simp) (by simp [hwsc])
          have H2 : RepsThenTail (c :: rest) ∨ TailShape (c :: rest) := by
            rcases H with h1 | ⟨-, h2⟩
            · left; simpa using h1
            · right; simpa using h2
          exact Or.inl (repsThenTail_prepend curRev.reverse sp (c :: rest)
            (by simpa using hne) (by simpa using hws) hspne hspall H2)
        · rw [if_neg hwsc] at h
          by_cases hpar : c = '('
          · rw [if_pos hpar] at h
            split at h
            · split at h
              · rename_i hcond hap
                obtain ⟨hrep, hpure⟩ := hcond
                obtain ⟨params, sp2, r2, heqr, hps, hsp2⟩ := sigParen_sound rest hap
                refine Or.inr ⟨hrep, curRev.reverse, sp, params, sp2, r2, ?_,
                  by simpa using hne, by simpa using hpure, hspall, hps, hsp2⟩
                subst hpar
                rw [heqr]
              · exact Option.noConfusion h
            · exact Option.noConfusion h
          · rw [if_neg hpar] at h
            exact Option.noConfusion h

/-- A successful `sigEntry` means the input after the modifiers is
return-type tokens followed by the identifier/parameter/brace tail. -/
theorem sigEntry_sound (cs : List Char) (nm : String) (h : sigEntry cs = some nm) :
    RepsThenTail cs := by
  cases cs with
  | nil => exact Option.noConfusion h
  | cons c rest =>
    simp only [sigEntry] at h
    by_cases hw : isWordStar c
    · rw [if_pos hw] at h
      have H := (sigScan_sound rest).1 [c] false nm h (by simp) (by simp [hw])
      rcases H with h1 | ⟨hcontra, -⟩
      · simpa using h1
      · exact Bool.noConfusion hcontra
    · rw [if_neg hw] at h
      exact Option.noConfusion h

/-- A successful `afterKw` consumed the keyword plus a nonempty whitespace
run. -/
theorem afterKw_sound (kw cs r : List Char) (h : afterKw kw cs = some r) :
    ∃ sp, sp ≠ [] ∧ sp.all isSpaceCh = true ∧ cs = kw ++ (sp ++ r) := by
  unfold afterKw at h
  cases hA : afterLit kw cs with
  | none => rw [hA] at h; exact Option.noConfusion h
  | some r0 =>
    rw [hA] at h
    unfold afterLit at hA
    split at hA
    · rename_i hpre
      obtain rfl : cs.drop kw.length = r0 := Option.some.inj hA
      obtain ⟨t, rfl⟩ := List.isPrefixOf_iff_prefix.mp hpre
      rw [List.drop_left] at h
      cases t with
      | nil => exact Option.noConfusion h
      | cons c rest =>
        dsimp only [] at h
        by_cases hs : isSpaceCh c
        · rw [if_pos hs] at h
          obtain rfl := Option.some.inj h
          refine ⟨c :: rest.takeWhile isSpaceCh, by simp, ?_, ?_⟩
          · rw [List.all_cons]
            simp only [hs, Bool.true_and]
            simp only [List.all_eq_true]
            intro x hx
            exact List.mem_takeWhile_imp hx
          · congr 1
            simp [List.takeWhile_append_dropWhile]
        · rw [if_neg hs] at h
          exact Option.noConfusion h
    · exact Option.noConfusion hA

theorem opt_orElse_some {α : Type} {a b : Option α} {x : α}
    (h : (a <|> b) = some x) : a = some x ∨ b = some x := by
  cases a with
  | none => right; simpa using h
  | some v => left; simpa using h

/-- A successful `funcPatternName` splits the line into consumed optional
modifiers and a remainder accepted by the token walk. -/
theorem funcPatternName_cases (cs : List Char) (nm : String)
    (h : funcPatternName cs = some nm) :
    ∃ mods r2 : List Char, cs = mods ++ r2 ∧ ModsOk mods ∧ sigEntry r2 = some nm := by
  unfold funcPatternName at h
  simp only [Option.bind_eq_bind] at h
  rcases opt_orElse_some h with h1 | h'
  · -- static + inline consumed
    obtain ⟨r1, hS, hrest⟩ := (by simpa [Option.bind_eq_some] using h1 : ∃ r1,
      afterKw "static".data cs = some r1 ∧
        ((afterKw "inline".data r1).bind fun r2 => sigEntry r2) = some nm)
    obtain ⟨r2, hI, hE⟩ := (by simpa [Option.bind_eq_some] using hrest : ∃ r2,
      afterKw "inline".data r1 = some r2 ∧ sigEntry r2 = some nm)
    obtain ⟨sp1, hsp1n, hsp1, rfl⟩ := afterKw_sound _ _ _ hS
    obtain ⟨sp2, hsp2n, hsp2, rfl⟩ := afterKw_sound _ _ _ hI
    refine ⟨("static".data ++ sp1) ++ ("inline".data ++ sp2), r2,
      by simp [List.append_assoc], ?_, hE⟩
    exact ⟨"static".data ++ sp1, "inline".data ++ sp2, rfl,
      Or.inr ⟨sp1, hsp1n, hsp1, rfl⟩, Or.inr ⟨sp2, hsp2n, hsp2, rfl⟩⟩
  rcases opt_orElse_some h' with h1 | h'
  · -- static only
    obtain ⟨r1, hS, hE⟩ := (by simpa [Option.bind_eq_some] using h1 : ∃ r1,
      afterKw "static".data cs = some r1 ∧ sigEntry r1 = some nm)
    obtain ⟨sp1, hsp1n, hsp1, rfl⟩ := afterKw_sound _ _ _ hS
    refine ⟨"static".data ++ sp1, r1, by simp [List.append_assoc], ?_, hE⟩
    exact ⟨"static".data ++ sp1, [], by simp,
      Or.inr ⟨sp1, hsp1n, hsp1, rfl⟩, Or.inl rfl⟩
  rcases opt_orElse_some h' with h1 | h1
  · -- inline only
    obtain ⟨r1, hI, hE⟩ := (by simpa [Option.bind_eq_some] using h1 : ∃ r1,
      afterKw "inline".data cs = some r1 ∧ sigEntry r1 = some nm)
    obtain ⟨sp1, hsp1n, hsp1, rfl⟩ := afterKw_sound _ _ _ hI
    refine ⟨"inline".data ++ sp1, r1, by simp [List.append_assoc], ?_, hE⟩
    exact ⟨[], "inline".data ++ sp1, by simp,
      Or.inl rfl, Or.inr ⟨sp1, hsp1n, hsp1, rfl⟩⟩
  · -- no modifiers
    exact ⟨[], cs, by simp, ⟨[], [], by simp, Or.inl rfl, Or.inl rfl⟩, by simpa using h1⟩

/-- C2 (amended): for every input line, the line is recognized as a
function-definition candidate only if, after optional leading modifiers,
it BEGINS with the shape
`<return-type-tokens> <identifier> ( <parameter-text> ) {` — the opening
brace need not be the last significant character on the line, so code
after the opening brace (e.g. a complete one-line function body) does not
prevent recognition. -/
theorem c2_recognition_shape (line : List Char) (nm : String)
    (h : funcPatternName line = some nm) : ShapeStart line := by
  obtain ⟨mods, r2, rfl, hmods, hE⟩ := funcPatternName_cases line nm h
  exact ⟨mods, r2, rfl, hmods, sigEntry_sound r2 nm hE⟩

/-- C2 witness: the recognized one-line function body decomposes into the
shape (with text after the brace). -/
theorem c2_witness : ShapeStart "int f(void) \x7b return 0; \x7d".data :=
  c2_recognition_shape "int f(void) \x7b return 0; \x7d".data "f" rfl

/-- C3: the `allowed_rules` of every extracted function are exactly the
allow-annotations of its signature line united with those of the lines of
its own span (signature line to closing-brace line); the set is a function
of those lines only, so an annotation outside the span never affects the
function. -/
theorem c3_allowed_rules_span (content : String) (f : Function)
    (hf : f ∈ extract_functions content) :
    f.allowed_rules =
      allowRulesOf (getLn (splitOnCh '\n' content.data) (f.start_line - 1)) ∪
        unionAllows (((splitOnCh '\n' content.data).drop f.start_line).take
          (f.end_line - f.start_line)) := by
  obtain ⟨k, fname, hm, rfl⟩ := extractLoop_mem (splitOnCh '\n' content.data) _ _ f hf
  obtain ⟨n, hn, heq⟩ := scanBody_spec ((splitOnCh '\n' content.data).drop (k + 1)) (k + 1) 1 {}
  simp only [buildFunction, heq, foldl_facts_allowed]
  simp [Finset.union_comm]

/-- An all-default `Function` value, used only to make concrete list
lookups total in witness statements. -/
def noFunction : Function :=
  ⟨"", 0, 0, 0, false, false, false, false, false, ⟨false, false, ∅, false, ""⟩, [], "", ∅⟩

/-- Two adjacent functions; the first body carries an `allow(no-malloc)`
annotation. -/
def c3File : String :=
  "int a(void) \x7b\n  // FERN_STYLE: allow(no-malloc) mine\n\x7d\nint b(void) \x7b\n  malloc(4);\n\x7d"

/-- The second extracted function of `c3File`. -/
def c3FnB : Function := (extract_functions c3File).getD 1 noFunction

/-- C3 witness: the second function's `allowed_rules` is the union over its
own span only, so the `allow(no-malloc)` inside the first function's body
does not reach it. -/
theorem c3_witness :
    c3FnB.allowed_rules =
      allowRulesOf (getLn (splitOnCh '\n' c3File.data) (c3FnB.start_line - 1)) ∪
        unionAllows (((splitOnCh '\n' c3File.data).drop c3FnB.start_line).take
          (c3FnB.end_line - c3FnB.start_line)) :=
  c3_allowed_rules_span c3File c3FnB (by decide)

/-- C1 counterexample: an `assert(...)` pattern occurring only inside a
string literal on a body line (the stripped line has no such pattern) DOES
change `assertion_count`: the count is 1 with the literal and 0 with it
emptied. -/
theorem c1_counterexample :
    lineHasAssert (strip_string_literals "  const char *s = \"assert(x)\";").data = false ∧
    (extract_functions
        "int f(void) \x7b\n  const char *s = \"assert(x)\";\n\x7d").map
      Function.assertion_count = [1] ∧
    (extract_functions
        "int f(void) \x7b\n  const char *s = \"\";\n\x7d").map
      Function.assertion_count = [0] := by
  exact ⟨rfl, by decide, by decide⟩

/-- C1 (amended): fact collection runs on the RAW body lines, not the
`strip_string_literals`-transformed ones (only brace counting is
stripped): every extracted function's assertion count is the number of raw
body lines matching the assertion-call pattern, and the loop/malloc/free
flags are disjunctions of the raw-line patterns — so a pattern occurring
only inside a string or char literal does change them. -/
theorem c1_facts_from_raw_lines (content : String) (f : Function)
    (hf : f ∈ extract_functions content) :
    f.assertion_count =
      (((splitOnCh '\n' content.data).drop f.start_line).take
        (f.end_line - f.start_line)).countP (fun l => lineHasAssert l) ∧
    f.has_unbounded_loop =
      (((splitOnCh '\n' content.data).drop f.start_line).take
        (f.end_line - f.start_line)).any lineUnbounded ∧
    f.has_malloc =
      (((splitOnCh '\n' content.data).drop f.start_line).take
        (f.end_line - f.start_line)).any lineHasMalloc ∧
    f.has_free =
      (((splitOnCh '\n' content.data).drop f.start_line).take
        (f.end_line - f.start_line)).any lineHasFree := by
  obtain ⟨k, fname, hm, rfl⟩ := extractLoop_mem (splitOnCh '\n' content.data) _ _ f hf
  obtain ⟨n, hn, heq⟩ := scanBody_spec ((splitOnCh '\n' content.data).drop (k + 1)) (k + 1) 1 {}
  simp only [buildFunction, heq, foldl_facts_assert, foldl_facts_loop, foldl_facts_malloc,
    foldl_facts_free]
  simp

/-- A one-function file whose body calls `malloc`. -/
def c1File : String := "int f(void) \x7b\n  malloc(1);\n\x7d"

/-- The single extracted function of `c1File`. -/
def c1Fn : Function := (extract_functions c1File).getD 0 noFunction

/-- C1 witness: the facts of the function of a concrete file equal the raw
per-line aggregation. -/
theorem c1_witness :
    c1Fn.assertion_count =
      (((splitOnCh '\n' c1File.data).drop c1Fn.start_line).take
        (c1Fn.end_line - c1Fn.start_line)).countP (fun l => lineHasAssert l) ∧
    c1Fn.has_unbounded_loop =
      (((splitOnCh '\n' c1File.data).drop c1Fn.start_line).take
        (c1Fn.end_line - c1Fn.start_line)).any lineUnbounded ∧
    c1Fn.has_malloc =
      (((splitOnCh '\n' c1File.data).drop c1Fn.start_line).take
        (c1Fn.end_line - c1Fn.start_line)).any lineHasMalloc ∧
    c1Fn.has_free =
      (((splitOnCh '\n' c1File.data).drop c1Fn.start_line).take
        (c1Fn.end_line - c1Fn.start_line)).any lineHasFree :=
  c1_facts_from_raw_lines c1File c1Fn (by decide)

/-!
## C6: SignatureAnalyzer parameter names

`specSplitTop` below renders the claim's "split the parenthesized text on
top-level commas" as a direct recursion (nested parentheses raise the depth
and their commas do not split), to be compared with the accumulator loop
`splitParams` of the source.  The claim's per-parameter pipeline is
rendered twice: `claimParamName` strips only TRAILING `[...]` suffixes
(the claim's words), `amendedParamName` removes ALL `[...]` groups (what
`re.sub` in the source does).
-/

def consHead (c : Char) : List (List Char) → List (List Char)
  | [] => [[c]]
  | p :: ps => (c :: p) :: ps

/-- Claim-side splitter: split on commas at parenthesis depth 0, keeping
the raw pieces. -/
def specSplitTop : List Char → Int → List (List Char)
  | [], _ => [[]]
  | c :: rest, depth =>
    if c = '(' then consHead c (specSplitTop rest (depth + 1))
    else if c = ')' then consHead c (specSplitTop rest (depth - 1))
    else if c = ',' ∧ depth = 0 then [] :: specSplitTop rest depth
    else consHead c (specSplitTop rest depth)

/-- Strip trailing `[...]` suffixes (claim's words): while the text ends in
`]` with a matching `[`, drop that final group.  Works on the reversed
text; fuel-based, `fuel = length` suffices. -/
def stripTrailRevFuel : Nat → List Char → List Char
  | 0, l => l
  | fuel + 1, l =>
    match l with
    | ']' :: rest =>
      if rest.contains '[' then stripTrailRevFuel fuel ((rest.dropWhile (· ≠ '[')).drop 1)
      else l
    | _ => l

def stripTrailingBrackets (p : List Char) : List Char :=
  (stripTrailRevFuel p.length p.reverse).reverse

/-- Per-parameter pipeline following the claim's words: strip trailing
`[...]` array suffixes, take the last whitespace-separated token, strip
leading `*`; empty or `void` yields no name. -/
def claimParamName (p : List Char) : Option String :=
  let q := stripTrailingBrackets (trim p)
  match (splitWs q).getLast? with
  | none => none
  | some w =>
    let n := w.dropWhile (· = '*')
    if n = [] ∨ n = "void".data then none else some (String.mk n)

/-- Parameter-name extraction exactly as the claim states it. -/
def claimParamNames (line : List Char) : List String :=
  match extractParen line with
  | none => []
  | some grp =>
    let t := trim grp
    if t = [] ∨ t = "void".data then []
    else (specSplitTop t 0).filterMap claimParamName

/-- Per-parameter pipeline of the amended claim: remove ALL `[...]` groups
(wherever they occur), then last token, strip leading `*`, drop
empty/`void`. -/
def amendedParamName (p : List Char) : Option String :=
  let q := removeBrackets (trim p)
  match (splitWs q).getLast? with
  | none => none
  | some w =>
    let n := w.dropWhile (· = '*')
    if n = [] ∨ n = "void".data then none else some (String.mk n)

/-- Parameter-name extraction as the amended claim states it. -/
def amendedParamNames (line : List Char) : List String :=
  match extractParen line with
  | none => []
  | some grp =>
    let t := trim grp
    if t = [] ∨ t = "void".data then []
    else (specSplitTop t 0).filterMap amendedParamName

/-- C6 counterexample: on the recognized signature
`void f(int ab[3]cd) {` the source removes the inner `[3]` (name `abcd`),
while the claim's trailing-suffix-only pipeline keeps it (name `ab[3]cd`).
-/
theorem c6_counterexample :
    funcPatternName "void f(int ab[3]cd) \x7b".data = some "f" ∧
    extract_function_params "void f(int ab[3]cd) \x7b".data = ["abcd"] ∧
    claimParamNames "void f(int ab[3]cd) \x7b".data = ["ab[3]cd"] ∧
    ["abcd"] ≠ ["ab[3]cd"] := by
  exact ⟨rfl, by decide, by decide, by decide⟩

theorem specSplitTop_ne_nil (cs : List Char) (d : Int) : specSplitTop cs d ≠ [] := by
  cases cs with
  | nil => simp [specSplitTop]
  | cons c rest =>
    simp only [specSplitTop]
    split
    · rcases h : specSplitTop rest (d + 1) with _ | ⟨p, ps⟩ <;> simp [consHead]
    · split
      · rcases h : specSplitTop rest (d - 1) with _ | ⟨p, ps⟩ <;> simp [consHead]
      · split
        · simp
        · rcases h : specSplitTop rest d with _ | ⟨p, ps⟩ <;> simp [consHead]

def prependHead (cur : List Char) : List (List Char) → List (List Char)
  | [] => [cur]
  | p :: ps => (cur ++ p) :: ps

theorem prependHead_nil (L : List (List Char)) (h : L ≠ []) : prependHead [] L = L := by
  cases L with
  | nil => exact absurd rfl h
  | cons p ps => simp [prependHead]

theorem prependHead_consHead (cur : List Char) (c : Char) (L : List (List Char)) :
    prependHead cur (consHead c L) = prependHead (cur ++ [c]) L := by
  cases L with
  | nil => simp [prependHead, consHead]
  | cons p ps => simp [prependHead, consHead]

/-- Drop the final piece when it is empty (the source's conditional final
append). -/
def dropFin : List (List Char) → List (List Char)
  | [] => []
  | [p] => if p = [] then [] else [p]
  | p :: ps => p :: dropFin ps

theorem dropFin_cons (a : List Char) (l : List (List Char)) (h : l ≠ []) :
    dropFin (a :: l) = a :: dropFin l := by
  cases l with
  | nil => exact absurd rfl h
  | cons q qs => rfl

/-- The source's accumulator splitting loop equals the claim-side direct
splitter followed by stripping each piece and dropping a final empty
piece. -/
theorem splitParams_eq : ∀ (cs : List Char) (d : Int) (cur : List Char),
    splitParams cs d cur = dropFin ((prependHead cur (specSplitTop cs d)).map trim) := by
  intro cs
  induction cs with
  | nil =>
    intro d cur
    simp only [splitParams, specSplitTop, prependHead, List.append_nil, List.map]
    rfl
  | cons c rest ih =>
    intro d cur
    by_cases h1 : c = '('
    · subst h1
      rw [splitParams, if_pos rfl]
      rw [specSplitTop, if_pos rfl, prependHead_consHead]
      exact ih (d + 1) (cur ++ ['('])
    · by_cases h2 : c = ')'
      · subst h2
        rw [splitParams, if_neg (by simp), if_pos rfl]
        rw [specSplitTop, if_neg (by simp), if_pos rfl, prependHead_consHead]
        exact ih (d - 1) (cur ++ [')'])
      · by_cases h3 : c = ',' ∧ d = 0
        · obtain ⟨rfl, rfl⟩ := h3
          rw [splitParams, if_neg (by simp), if_neg (by simp), if_pos ⟨rfl, rfl⟩]
          rw [specSplitTop, if_neg (by simp), if_neg (by simp), if_pos ⟨rfl, rfl⟩]
          have hL := specSplitTop_ne_nil rest (0 : Int)
          rw [show prependHead cur ([] :: specSplitTop rest 0) =
              (cur ++ []) :: specSplitTop rest 0 from rfl]
          rw [List.map_cons,
            dropFin_cons _ _ (by simpa using hL)]
          rw [ih 0 [], prependHead_nil _ hL]
          simp
        · rw [splitParams, if_neg h1, if_neg h2, if_neg h3]
          rw [specSplitTop, if_neg h1, if_neg h2, if_neg h3, prependHead_consHead]
          exact ih d (cur ++ [c])

theorem paramName_nil : paramName [] = none := rfl

theorem filterMap_paramName_dropFin (l : List (List Char)) :
    (dropFin l).filterMap paramName = l.filterMap paramName := by
  induction l with
  | nil => rfl
  | cons p ps ih =>
    cases ps with
    | nil =>
      by_cases hp : p = []
      · subst hp; simp [dropFin, paramName_nil]
      · simp [dropFin, hp]
    | cons q qs =>
      rw [dropFin_cons _ _ (by simp)]
      cases hp : paramName p <;> simp [List.filterMap_cons, hp, ih]

/-- C6 (amended): the source's parameter-name extraction equals the
claim's pipeline with "strip trailing `[...]` suffixes" amended to
"remove all `[...]` groups": split the parenthesized text on top-level
commas only, strip each piece, remove all bracket groups, take the last
whitespace-separated token, strip leading `*`, drop empty/`void` names;
an empty or `void` parameter list yields no names. -/
theorem c6_param_names_amended (line : List Char) :
    extract_function_params line = amendedParamNames line := by
  unfold extract_function_params amendedParamNames
  cases hE : extractParen line with
  | none => rfl
  | some grp =>
    by_cases hv : trim grp = [] ∨ trim grp = "void".data
    · simp [hv]
    · simp only [if_neg hv]
      rw [splitParams_eq, prependHead_nil _ (specSplitTop_ne_nil _ _),
        filterMap_paramName_dropFin, List.filterMap_map]
      rfl

end CheckStyle
